import Mathlib

/-
Verification of the cfour_proc post-processing scripts.

The Python sources are shallowly embedded: document dictionaries become
structures, in-place list mutation becomes explicit state passing, and
Python runtime failures (NameError, KeyError, TypeError, IndexError) become
an explicit error type threaded through Except.

Every numeric value the scripts manipulate is written in the sources and in
the parsed files as a decimal literal, and the only arithmetic performed on
them is comparison, subtraction, multiplication and absolute value, all of
which are exact on decimals. Numbers are therefore embedded as exact
decimals: an integer mantissa over a power of ten. Rounding of binary
floating point is not modelled.
-/

deriving instance DecidableEq for Except

namespace CfourProc

/-- An exact decimal number, of value num divided by 10 to the exp. -/
structure Dec where
  num : Int
  exp : Nat
deriving DecidableEq, Repr

/-- The power of ten used as a common denominator. -/
def pow10 (e : Nat) : Int := (10 : Int) ^ e

/-- Value comparison of two decimals, by cross multiplication. -/
def Dec.le (a b : Dec) : Prop := a.num * pow10 b.exp ≤ b.num * pow10 a.exp

instance (a b : Dec) : Decidable (a.le b) := inferInstanceAs (Decidable (_ ≤ _))

/-- Strict value comparison of two decimals. -/
def Dec.lt (a b : Dec) : Prop := a.num * pow10 b.exp < b.num * pow10 a.exp

instance (a b : Dec) : Decidable (a.lt b) := inferInstanceAs (Decidable (_ < _))

/-- Value equality of two decimals, by cross multiplication. -/
def Dec.eqv (a b : Dec) : Prop := a.num * pow10 b.exp = b.num * pow10 a.exp

instance (a b : Dec) : Decidable (a.eqv b) := inferInstanceAs (Decidable (_ = _))

/-- Exact difference of two decimals, on the common power of ten. -/
def Dec.sub (a b : Dec) : Dec :=
  ⟨a.num * pow10 (max a.exp b.exp - a.exp) - b.num * pow10 (max a.exp b.exp - b.exp),
   max a.exp b.exp⟩

/-- Exact product of two decimals. -/
def Dec.mul (a b : Dec) : Dec := ⟨a.num * b.num, a.exp + b.exp⟩

/-- Absolute value of a decimal. -/
def Dec.abs (a : Dec) : Dec := ⟨|a.num|, a.exp⟩

/-- Negation of a decimal. -/
def Dec.neg (a : Dec) : Dec := ⟨-a.num, a.exp⟩

/-- The Python str.lower method, modelled as a character by character map. -/
def pyLower (s : String) : String := ⟨s.data.map Char.toLower⟩

/-- Insert an element into a sorted list, before the first element it
compares le to. Helper of stableSort. -/
def insertSorted {α : Type} (le : α → α → Bool) (x : α) : List α → List α
  | [] => [x]
  | y :: ys => if le x y then x :: y :: ys else y :: insertSorted le x ys

/-- The stable ascending sort that models the Python list.sort method: a
stable sort is determined up to extensional equality by its comparison, so
insertion sort computes exactly the list Timsort produces. -/
def stableSort {α : Type} (le : α → α → Bool) : List α → List α
  | [] => []
  | x :: xs => insertSorted le x (stableSort le xs)

/-- Python runtime failures that the embedded code can raise. -/
inductive PyError where
  | nameError
  | keyError
  | typeError
  | indexError
deriving DecidableEq, Repr

/-- Excitation energy record: the value in atomic units and in electron volts. -/
structure ExcEnergy where
  au : Dec
  eV : Dec
deriving DecidableEq, Repr

/-- Energy record of a root. The excitation entry is absent until
add_excitation_energy fills it in. -/
structure EnergyData where
  totalAu : Dec
  excitation : Option ExcEnergy := none
deriving DecidableEq, Repr

/-- Irrep dictionary. CFOUR labels the irrep with a number; the name and the
per-irrep energy number are filled in by add_irrep_energy_no_and_name. -/
structure IrrepData where
  no : Nat
  name : Option String := none
  energyNo : Option Nat := none
deriving DecidableEq, Repr

/-- A single excitation amplitude: occupied orbital I, virtual orbital A. -/
structure Single where
  occI : Int
  virtA : Int
  amplitude : Dec
deriving DecidableEq, Repr

/-- A double excitation amplitude with two orbital pairs. -/
structure Double where
  occI : Int
  occJ : Int
  virtA : Int
  virtB : Int
  amplitude : Dec
deriving DecidableEq, Repr

/-- Data of a converged root section: singles and doubles amplitudes. -/
structure ConvergedRoot where
  singles : List Single
  doubles : List Double
deriving DecidableEq, Repr

/-- One molecular orbital entry of the MOs listing: the computational symmetry
number and name of the orbital. -/
structure MO where
  compsymmNo : Nat
  compsymmName : String
deriving DecidableEq, Repr

/-- One vibrational normal coordinate entry, as used by the Mulliken sort. -/
structure Mode where
  symmetry : String
  freq : Dec
  kind : String
deriving DecidableEq, Repr

/-- One component of the normal coordinate gradient. -/
structure GradComponent where
  modeNo : Nat
  omega : Dec
  dEdQ : Dec
deriving DecidableEq, Repr

/-- The typed payload stored under the data key of a section. The upstream
parser guarantees that a section name determines the shape of its data, so
each shape is one constructor. -/
inductive SectionData where
  | empty
  | basis (value : String)
  | mos (occupied : List MO) (virtual : List MO)
  | eomSolution (model : String) (energy : EnergyData) (irrep : IrrepData)
  | eomRoot (model : String)
  | convergedRoot (cr : ConvergedRoot)
  | eomEnergy (energy : EnergyData)
  | irrepData (irrep : IrrepData)
  | normalCoordinates (ncs : Option (List Mode))
  | gradient (comps : Option (List GradComponent))
  | energyTotal (energy : EnergyData)
deriving DecidableEq, Repr

/-- A section of a parsed CFOUR output: name, the ok flag of its metadata,
the optional start and end line markers, its data, and nested sections. -/
inductive Sec where
  | mk (name : String) (ok : Bool) (startLine : Option Int)
      (endLine : Option Int) (data : SectionData) (sections : List Sec)

/-- Name of a section. -/
def Sec.name : Sec → String
  | .mk n _ _ _ _ _ => n

/-- The ok flag of the metadata of a section. -/
def Sec.ok : Sec → Bool
  | .mk _ o _ _ _ _ => o

/-- The start line marker of a section, when the key is present. -/
def Sec.startLine : Sec → Option Int
  | .mk _ _ s _ _ _ => s

/-- The end line marker of a section, when the key is present. -/
def Sec.endLine : Sec → Option Int
  | .mk _ _ _ e _ _ => e

/-- The data payload of a section. -/
def Sec.data : Sec → SectionData
  | .mk _ _ _ _ d _ => d

/-- The nested sections of a section. -/
def Sec.sections : Sec → List Sec
  | .mk _ _ _ _ _ ss => ss

/-- A program block of the parsed output: name, data, and its sections. -/
structure Program where
  name : String
  data : SectionData := .empty
  sections : List Sec

/-- A parsed CFOUR output is an ordered list of programs. -/
abbrev Document := List Program

/-- Identifier dictionary attached to a root by add_root_ids: the insertion
order number and, after the sort, the global energy number. -/
structure Ids where
  no : Nat
  energyNo : Option Nat := none
deriving DecidableEq, Repr

/-- An extracted EOM root record. The src field records which eom solution
section of the document the irrep and energy dictionaries of this record
alias (Extractor B); it is none for Extractor A records, whose irrep
dictionary is a fresh copy made with dict(irrep_data) and whose remaining
aliases are never written by the Extractor A pipeline. -/
structure XRoot where
  model : String
  irrep : IrrepData
  energy : EnergyData
  converged : Option ConvergedRoot := none
  ids : Option Ids := none
  src : Option (Nat × Nat) := none
deriving DecidableEq, Repr

/-- Conversion factor from print_roots_xvee.py: au2eV = 27.211386245988. -/
def au2eV : Dec := ⟨27211386245988, 12⟩

/-- SINGLE_THRESHOLD = 0.1 from print_roots.py. -/
def SINGLE_THRESHOLD : Dec := ⟨1, 1⟩

/-- DOUBLE_THRESHOLD = 0.1 from print_roots.py. -/
def DOUBLE_THRESHOLD : Dec := ⟨1, 1⟩

/-- The singles threshold filter used by print_cfour_excite_section and
print_eom_roots_summary: keep the singles whose absolute amplitude exceeds
SINGLE_THRESHOLD. -/
def filter_singles (singles : List Single) : List Single :=
  singles.filter (fun s => decide (SINGLE_THRESHOLD.lt s.amplitude.abs))

/-- The doubles threshold filter used by print_eom_roots_summary: keep the
doubles whose absolute amplitude exceeds DOUBLE_THRESHOLD. -/
def filter_doubles (doubles : List Double) : List Double :=
  doubles.filter (fun d => decide (DOUBLE_THRESHOLD.lt d.amplitude.abs))

/-- Value of the loop variable after the Python idiom
for x in l: if p x: break
namely the first element satisfying p, otherwise the last element of the
list; none when the list is empty, in which case a later use of the loop
variable raises NameError. -/
def pyForBreak {α : Type} (p : α → Bool) : List α → Option α
  | [] => none
  | a :: rest =>
    if p a then some a
    else match pyForBreak p rest with
      | none => some a
      | some b => some b

/-- Embeds get_basis of print_roots.py. The for and break loops keep the
Python semantics: on an empty document the loop variable xjoda stays unbound
and its use raises NameError. The Python raw_basis.split() is modelled by
splitting on spaces and dropping empty tokens. -/
def get_basis (cfour : Document) : Except PyError (Option String) :=
  match pyForBreak (fun prog => prog.name == "xjoda") cfour with
  | none => .error .nameError
  | some xjoda =>
    if xjoda.name != "xjoda" then .ok none
    else match pyForBreak (fun s => s.name == "control parameters") xjoda.sections with
      | none => .error .nameError
      | some cp =>
        if cp.name != "control parameters" then .ok none
        else match cp.data with
          | .basis v =>
            match ((v.splitOn " ").filter (fun t => t != "")).head? with
            | some tok => .ok (some tok)
            | none => .error .indexError
          | _ => .error .keyError

/-- Loop body of collect_normal_coordinates: the last matching section wins,
and a matching section whose data lacks the normal coordinates key makes the
function return an empty list at once. -/
def ncLoop : List Sec → Option (List Mode) → Option (List Mode)
  | [], acc => acc
  | s :: rest, acc =>
    if s.name != "normal coordinates" then ncLoop rest acc
    else match s.data with
      | .normalCoordinates none => some []
      | .normalCoordinates (some ncs) => ncLoop rest (some ncs)
      | _ => some []

/-- Embeds collect_normal_coordinates of print_normal_coordinates.py. When no
program is named xjoda the variable last_xjoda stays None and subscripting it
raises TypeError, exactly as the Python does. A run that finds no matching
section returns None after a warning. -/
def collect_normal_coordinates (cfour : Document) :
    Except PyError (Option (List Mode)) :=
  match (cfour.filter (fun p => p.name == "xjoda")).getLast? with
  | none => .error .typeError
  | some xjoda => .ok (ncLoop xjoda.sections none)

/-- Loop body of collect_gradient: matching sections append their components;
a matching section whose data lacks the gradient key discards everything and
returns an empty list. -/
def gradLoop : List Sec → List GradComponent → List GradComponent
  | [], acc => acc
  | s :: rest, acc =>
    if s.name != "normal coordinate gradient" then gradLoop rest acc
    else match s.data with
      | .gradient none => []
      | .gradient (some comps) => gradLoop rest (acc ++ comps)
      | _ => []

/-- Embeds collect_gradient of print_gradient.py. When no program is named
xjoda the variable last_xjoda stays None and subscripting it raises
TypeError, exactly as the Python does. -/
def collect_gradient (cfour : Document) : Except PyError (List GradComponent) :=
  match (cfour.filter (fun p => p.name == "xjoda")).getLast? with
  | none => .error .typeError
  | some xjoda => .ok (gradLoop xjoda.sections [])

/-- Replace the element at index i, leaving the list unchanged when the index
is out of range. Used to model an in-place write through an alias. -/
def listModify {α : Type} : List α → Nat → (α → α) → List α
  | [], _, _ => []
  | a :: l, 0, f => f a :: l
  | a :: l, n + 1, f => a :: listModify l n f

/-- Embeds add_irrep of irrep_no_to_name.py: the first name observed for an
irrep number is kept, later entries for the same number are ignored. -/
def add_irrep (mo : MO) (m : List (Nat × String)) : List (Nat × String) :=
  if (m.find? (fun p => p.1 == mo.compsymmNo)).isSome then m
  else m ++ [(mo.compsymmNo, mo.compsymmName)]

/-- Scan of one section inside an SCF program by get_irrep_no_to_name: the
occupied and then the virtual orbitals of each MOs listing feed add_irrep.
When the listing is marked not ok the Python only prints a warning and
continues. The upstream parser guarantees that a section named MOs carries
orbital listings. -/
def mosFold (m : List (Nat × String)) (s : Sec) : List (Nat × String) :=
  if s.name == "MOs" then
    match s.data with
    | .mos occ virt => (occ ++ virt).foldl (fun m mo => add_irrep mo m) m
    | _ => m
  else m

/-- Embeds get_irrep_no_to_name of irrep_no_to_name.py: every program named
xvscf or xdqcscf contributes the entries of its MOs listings. -/
def get_irrep_no_to_name (cfour : Document) : List (Nat × String) :=
  cfour.foldl (fun m prog =>
    if prog.name == "xvscf" || prog.name == "xdqcscf" then
      prog.sections.foldl mosFold m
    else m) []

/-- Dictionary lookup in the irrep index; none models a Python KeyError. -/
def lookupName (idx : List (Nat × String)) (no : Nat) : Option String :=
  (idx.find? (fun p => p.1 == no)).map (fun p => p.2)

/-- Replace the irrep dictionary stored in the data of an eom solution
section, modelling a write through the alias held by an Extractor B record. -/
def Sec.withSolutionIrrep (ir : IrrepData) : Sec → Sec
  | .mk n o s e d ss =>
    .mk n o s e
      (match d with
        | .eomSolution m en _ => .eomSolution m en ir
        | d => d) ss

/-- Replace the energy dictionary stored in the data of an eom solution
section, modelling a write through the alias held by an Extractor B record. -/
def Sec.withSolutionEnergy (en : EnergyData) : Sec → Sec
  | .mk n o s e d ss =>
    .mk n o s e
      (match d with
        | .eomSolution m _ ir => .eomSolution m en ir
        | d => d) ss

/-- Write an irrep dictionary through the alias of a record: for an
Extractor B record the aliased section of the document is updated; for an
Extractor A record the write stays in the copied dictionary of the record
and the document is untouched. -/
def writeIrrep (doc : Document) (src : Option (Nat × Nat)) (ir : IrrepData) :
    Document :=
  match src with
  | none => doc
  | some (pi, si) =>
    listModify doc pi (fun prog =>
      { prog with sections := listModify prog.sections si (Sec.withSolutionIrrep ir) })

/-- Write an energy dictionary through the alias of a record, as writeIrrep. -/
def writeEnergy (doc : Document) (src : Option (Nat × Nat)) (en : EnergyData) :
    Document :=
  match src with
  | none => doc
  | some (pi, si) =>
    listModify doc pi (fun prog =>
      { prog with sections := listModify prog.sections si (Sec.withSolutionEnergy en) })

/-- Comparison used by every roots.sort call in the sources: ascending total
energy in atomic units. The Python sort is stable, which mergeSort models. -/
def rootLe (a b : XRoot) : Bool :=
  decide (a.energy.totalAu.le b.energy.totalAu)

/-- Embeds add_root_ids, shared by print_roots.py and print_roots_xvee.py:
first every root receives ids with its insertion order number, then the list
is stable sorted by total energy and every root receives its rank as the
global energy number. The Option.map on ids is safe because the first pass
set ids on every root. -/
def add_root_ids (roots : List XRoot) : List XRoot :=
  let tagged := roots.enum.map (fun p => { p.2 with ids := some { no := p.1 } })
  (stableSort rootLe tagged).enum.map
    (fun p => { p.2 with ids := p.2.ids.map (fun i => { i with energyNo := some p.1 }) })

/-- Lookup in the per-irrep counter dictionary energy_irrep. -/
def lookupCnt (cnt : List (Nat × Nat)) (no : Nat) : Option Nat :=
  (cnt.find? (fun p => p.1 == no)).map (fun p => p.2)

/-- Store a counter value in the dictionary energy_irrep: the first entry of
the key is updated, a missing key is appended. -/
def setCnt : List (Nat × Nat) → Nat → Nat → List (Nat × Nat)
  | [], no, c => [(no, c)]
  | p :: rest, no, c =>
    if p.1 == no then (no, c) :: rest else p :: setCnt rest no c

/-- Loop body of add_irrep_energy_no_and_name over the energy sorted roots:
resolve the irrep name (a missing entry raises KeyError), bump the per-irrep
counter from 1, and write the enriched irrep dictionary both into the record
and, through any alias, into the document. -/
def enrichRoots (idx : List (Nat × String)) :
    Document → List (Nat × Nat) → List XRoot →
      Except PyError (Document × List XRoot)
  | doc, _, [] => .ok (doc, [])
  | doc, cnt, r :: rs =>
    match lookupName idx r.irrep.no with
    | none => .error .keyError
    | some nm =>
      (enrichRoots idx
          (writeIrrep doc r.src ⟨r.irrep.no, some nm, some ((lookupCnt cnt r.irrep.no).getD 0 + 1)⟩)
          (setCnt cnt r.irrep.no ((lookupCnt cnt r.irrep.no).getD 0 + 1)) rs).map
        (fun p => (p.1, { r with irrep := ⟨r.irrep.no, some nm, some ((lookupCnt cnt r.irrep.no).getD 0 + 1)⟩ } :: p.2))

/-- Embeds add_irrep_energy_no_and_name, shared by print_roots.py and
print_roots_xvee.py: build the irrep index from the document, stable sort
the roots by total energy, then enrich them in that order. -/
def add_irrep_energy_no_and_name (doc : Document) (roots : List XRoot) :
    Except PyError (Document × List XRoot) :=
  enrichRoots (get_irrep_no_to_name doc) doc [] (stableSort rootLe roots)

/-- Embeds add_excitation_energy of print_roots_xvee.py: every root receives
the excitation energy relative to the reference, in atomic units and in
electron volts; the write goes through any alias into the document. -/
def add_excitation_energy : Document → List XRoot → Dec → Document × List XRoot
  | doc, [], _ => (doc, [])
  | doc, r :: rs, ref =>
    let exAu := r.energy.totalAu.sub ref
    let en2 : EnergyData :=
      { r.energy with excitation := some { au := exAu, eV := exAu.mul au2eV } }
    let p := add_excitation_energy (writeEnergy doc r.src en2) rs ref
    (p.1, { r with energy := en2 } :: p.2)

/-- A diagnostic naming the line span of an invalid section, as printed by
collect_eom_roots_xvee with the fallback bounds 0 and -1. -/
structure Diag where
  secName : String
  startLine : Int
  endLine : Int
deriving DecidableEq, Repr

/-- Scan of the sections of the first xvee program by collect_eom_roots_xvee:
an eom solution marked not ok yields a diagnostic, an ok one yields a record
that aliases the irrep and energy dictionaries of the section. -/
def xveeScan (pi : Nat) : Nat → List Sec → Except PyError (List XRoot × List Diag)
  | _, [] => .ok ([], [])
  | si, s :: rest =>
    if s.name != "eom solution" then xveeScan pi (si + 1) rest
    else if s.ok = false then
      (xveeScan pi (si + 1) rest).map (fun p =>
        (p.1, ⟨s.name, (s.startLine).getD 0, (s.endLine).getD (-1)⟩ :: p.2))
    else match s.data with
      | .eomSolution model energy irrep =>
        (xveeScan pi (si + 1) rest).map (fun p =>
          ({ model := model, irrep := irrep, energy := energy,
             src := some (pi, si) } :: p.1, p.2))
      | _ => .error .keyError

/-- Embeds collect_eom_roots_xvee of print_roots_xvee.py: only the first
program named xvee is walked, because the loop breaks after processing it.
A document without an xvee program yields no roots and no failure. -/
def collect_eom_roots_xvee (cfour : Document) :
    Except PyError (List XRoot × List Diag) :=
  match cfour.enum.find? (fun p => p.2.name == "xvee") with
  | none => .ok ([], [])
  | some (pi, prog) => xveeScan pi 0 prog.sections

/-- Loop body of collect_ccsd over the sections of one xvcc program: an
A miracle section marked not ok is skipped with a warning, an ok one
contributes its total energy. -/
def ccsdSec (acc : List Dec) (s : Sec) : Except PyError (List Dec) :=
  if s.name != "A miracle" then .ok acc
  else if s.ok = false then .ok acc
  else match s.data with
    | .energyTotal e => .ok (acc ++ [e.totalAu])
    | _ => .error .keyError

/-- Embeds collect_ccsd of print_roots_xvee.py: every xvcc program is walked
and every valid A miracle section contributes its total CC energy. -/
def collect_ccsd (cfour : Document) : Except PyError (List Dec) :=
  cfour.foldlM (fun acc prog =>
    if prog.name != "xvcc" then .ok acc
    else prog.sections.foldlM ccsdSec acc) []

/-- The state of the Python locals of collect_eom_roots_xncc. The variables
converged_root and root_energy are function locals, so a value assigned for
one eom root section stays visible for every later one; none models the
unbound state whose use raises NameError. -/
structure XnccState where
  cr : Option ConvergedRoot := none
  en : Option EnergyData := none
  roots : List XRoot := []

/-- Scan of one subsection of an eom root section: a converged root or EOM
energy child overwrites the matching local variable. -/
def xnccScanSubsec (st : XnccState) (sub : Sec) : Except PyError XnccState :=
  if sub.name == "converged root" then
    match sub.data with
    | .convergedRoot c => .ok { st with cr := some c }
    | _ => .error .keyError
  else if sub.name == "EOM energy" then
    match sub.data with
    | .eomEnergy e => .ok { st with en := some e }
    | _ => .error .keyError
  else .ok st

/-- Scan of one eom root section by collect_eom_roots_xncc: after scanning
the subsections a record is appended unconditionally from the current values
of the locals, which raises NameError when either variable was never
assigned. The irrep dictionary of the enclosing irrep container is copied
into the record with dict(irrep_data), so the record holds no alias. -/
def xnccScanRoot (irrep : IrrepData) (st : XnccState) (root : Sec) :
    Except PyError XnccState :=
  if root.name != "eom root" then .ok st
  else match root.data with
    | .eomRoot model =>
      match root.sections.foldlM xnccScanSubsec st with
      | .error e => .error e
      | .ok st1 =>
        match st1.cr, st1.en with
        | some c, some e =>
          .ok { st1 with roots := st1.roots ++
            [{ model := model, irrep := irrep, energy := e, converged := some c }] }
        | _, _ => .error .nameError
    | _ => .error .keyError

/-- Scan of one irrep container of the eom section. The upstream parser
guarantees that a section named irrep carries an irrep dictionary. -/
def xnccScanIrrep (st : XnccState) (irrepSec : Sec) : Except PyError XnccState :=
  if irrepSec.name != "irrep" then .ok st
  else match irrepSec.data with
    | .irrepData ir => irrepSec.sections.foldlM (xnccScanRoot ir) st
    | _ => .error .keyError

/-- Scan of one eom section of the xncc program. -/
def xnccScanEom (st : XnccState) (eom : Sec) : Except PyError XnccState :=
  if eom.name != "eom" then .ok st
  else eom.sections.foldlM xnccScanIrrep st

/-- Embeds collect_eom_roots_xncc of print_roots.py: only the first program
named xncc is walked, because the loop breaks after processing it. A
document without an xncc program yields no roots and no failure. -/
def collect_eom_roots_xncc (cfour : Document) : Except PyError (List XRoot) :=
  match cfour.find? (fun p => p.name == "xncc") with
  | none => .ok []
  | some xncc =>
    (xncc.sections.foldlM xnccScanEom {}).map (fun st => st.roots)

/-- The Extractor A pipeline run by main of print_roots.py on the document:
collect the xncc roots, assign ids, sort, and enrich the irrep data. -/
def xnccPipeline (doc : Document) : Except PyError (Document × List XRoot) := do
  let roots ← collect_eom_roots_xncc doc
  add_irrep_energy_no_and_name doc (add_root_ids roots)

/-- The Extractor B pipeline run by main of print_roots_xvee.py on the
document: collect the CC reference energies and the xvee roots, assign ids,
sort, enrich the irrep data, then compute excitation energies against the
first CC energy, whose absence raises IndexError at that point. -/
def xveePipeline (doc : Document) : Except PyError (Document × List XRoot) := do
  let ccEnergies ← collect_ccsd doc
  let rd ← collect_eom_roots_xvee doc
  let p ← add_irrep_energy_no_and_name doc (add_root_ids rd.1)
  match ccEnergies.head? with
  | none => .error .indexError
  | some ref => .ok (add_excitation_energy p.1 p.2 ref)

/-- The comparison induced by the key function sort_Mulliken of
print_normal_coordinates.py: for the point group d2h the key is the pair of
the symmetry label and the negated frequency, compared lexicographically;
for every other point group the key is the constant 0, so any two modes
compare as equal. -/
def sort_Mulliken_le (point_group : String) (a b : Mode) : Bool :=
  if pyLower point_group == "d2h" then
    decide (a.symmetry < b.symmetry) ||
      (a.symmetry == b.symmetry && decide (a.freq.neg.le b.freq.neg))
  else true

/-- The Mulliken block of main of print_normal_coordinates.py: stable sort
the modes by the sort_Mulliken key, then lowercase every symmetry label. -/
def mulliken_reorder (point_group : String) (modes : List Mode) : List Mode :=
  (stableSort (sort_Mulliken_le point_group) modes).map
    (fun m => { m with symmetry := pyLower m.symmetry })

/-- Reading of the claim about Extractor B output, document wide: one entry
per eom solution section whose ok flag is true, over every xvee program of
the document. Used only to compare the code against that claim. -/
def xveeOkSolutionsDocWide (doc : Document) :
    List (String × EnergyData × IrrepData) :=
  (doc.filter (fun p => p.name == "xvee")).foldr
    (fun p acc =>
      ((p.sections.filter (fun s => s.name == "eom solution" && s.ok)).filterMap
        (fun s =>
          match s.data with
          | .eomSolution m e ir => some (m, e, ir)
          | _ => none)) ++ acc) []

/-- Reading of the claim about Extractor B output restricted to the first
xvee program, matching the break in collect_eom_roots_xvee: one entry per ok
eom solution section of that program. -/
def xveeOkSolutionsFirst (doc : Document) :
    List (String × EnergyData × IrrepData) :=
  match doc.find? (fun p => p.name == "xvee") with
  | none => []
  | some p =>
    (p.sections.filter (fun s => s.name == "eom solution" && s.ok)).filterMap
      (fun s =>
        match s.data with
        | .eomSolution m e ir => some (m, e, ir)
        | _ => none)

/-- The diagnostics demanded by the claim about Extractor B, restricted to
the first xvee program: one entry per not ok eom solution section, naming
the line span with the fallback bounds 0 and -1. -/
def xveeNotOkDiagsFirst (doc : Document) : List Diag :=
  match doc.find? (fun p => p.name == "xvee") with
  | none => []
  | some p =>
    (p.sections.filter (fun s => s.name == "eom solution" && !s.ok)).map
      (fun s => ⟨s.name, (s.startLine).getD 0, (s.endLine).getD (-1)⟩)

/-- Projection used to observe document mutation: the irrep dictionary
stored inside the first eom solution section of the first xvee program. -/
def firstXveeSolutionIrrep (doc : Document) : Option IrrepData :=
  (doc.find? (fun p => p.name == "xvee")).bind (fun p =>
    (p.sections.find? (fun s => s.name == "eom solution")).bind (fun s =>
      match s.data with
      | .eomSolution _ _ ir => some ir
      | _ => none))

/-- Projection used to observe document mutation: the energy dictionary
stored inside the first eom solution section of the first xvee program. -/
def firstXveeSolutionEnergy (doc : Document) : Option EnergyData :=
  (doc.find? (fun p => p.name == "xvee")).bind (fun p =>
    (p.sections.find? (fun s => s.name == "eom solution")).bind (fun s =>
      match s.data with
      | .eomSolution _ en _ => some en
      | _ => none))

/-- An MOs listing naming irrep 1 A1 and irrep 2 B2. -/
def mosSec : Sec := .mk "MOs" true none none (.mos [⟨1, "A1"⟩] [⟨2, "B2"⟩]) []

/-- An SCF program whose MOs listing defines the irrep index. -/
def scfProg : Program := { name := "xvscf", sections := [mosSec] }

/-- A bare extracted root with the given total energy and irrep number. -/
def mkRoot (e : Dec) (ir : Nat) : XRoot :=
  { model := "EOMEE-CCSD", irrep := { no := ir }, energy := { totalAu := e } }

/-- Document of the per-irrep numbering scenario: one SCF program. -/
def c1doc : Document := [scfProg]

/-- Roots of the scenario: total energies -75.010, -75.040, -75.010 au with
irrep numbers 1, 2, 1 in original id order 0, 1, 2. -/
def c1roots : List XRoot :=
  [mkRoot ⟨-75010, 3⟩ 1, mkRoot ⟨-75040, 3⟩ 2, mkRoot ⟨-75010, 3⟩ 1]

/-- A document whose xncc program holds one eom root section with an EOM
energy child but no converged root child. -/
def c2doc : Document :=
  [{ name := "xncc", sections :=
      [.mk "eom" true none none .empty
        [.mk "irrep" true none none (.irrepData { no := 1 })
          [.mk "eom root" true none none (.eomRoot "EOMEE-CCSD")
            [.mk "EOM energy" true none none
              (.eomEnergy { totalAu := ⟨-748, 1⟩ }) []]]]] }]

/-- Amplitudes of the one complete root of c2doc2. -/
def c2cr : ConvergedRoot := { singles := [⟨1, 2, ⟨5, 1⟩⟩], doubles := [] }

/-- A document whose xncc program holds one complete eom root section
followed by one that lacks the EOM energy child. -/
def c2doc2 : Document :=
  [{ name := "xncc", sections :=
      [.mk "eom" true none none .empty
        [.mk "irrep" true none none (.irrepData { no := 1 })
          [.mk "eom root" true none none (.eomRoot "EOMEE-CCSD")
            [.mk "converged root" true none none (.convergedRoot c2cr) [],
             .mk "EOM energy" true none none
               (.eomEnergy { totalAu := ⟨-748, 1⟩ }) []],
           .mk "eom root" true none none (.eomRoot "EOMEE-CCSD")
            [.mk "converged root" true none none
              (.convergedRoot { singles := [], doubles := [] }) []]]]] }]

/-- One valid eom solution section with line markers. -/
def xveeSolSec : Sec :=
  .mk "eom solution" true (some 10) (some 20)
    (.eomSolution "EOMEE-CCSD" { totalAu := ⟨-748, 1⟩ } { no := 1 }) []

/-- A document on which the whole Extractor B pipeline succeeds: an SCF
program for the irrep index, an xvcc program for the reference energy, and
an xvee program with one valid solution. -/
def c3doc : Document :=
  [scfProg,
   { name := "xvcc", sections :=
      [.mk "A miracle" true none none (.energyTotal { totalAu := ⟨-750, 1⟩ }) []] },
   { name := "xvee", sections := [xveeSolSec] }]

/-- An xncc program holding one complete eom root. -/
def xnccProgComplete : Program :=
  { name := "xncc", sections :=
      [.mk "eom" true none none .empty
        [.mk "irrep" true none none (.irrepData { no := 1 })
          [.mk "eom root" true none none (.eomRoot "EOMEE-CCSD")
            [.mk "converged root" true none none (.convergedRoot c2cr) [],
             .mk "EOM energy" true none none
               (.eomEnergy { totalAu := ⟨-748, 1⟩ }) []]]]] }

/-- A document on which the whole Extractor A pipeline succeeds. -/
def c3xnccDoc : Document := [scfProg, xnccProgComplete]

/-- A document with two xvee programs, each holding a valid eom solution,
plus one invalid solution in the first program. -/
def c5doc : Document :=
  [{ name := "xvee", sections :=
      [.mk "eom solution" true none none
        (.eomSolution "EOMEE-CCSD" { totalAu := ⟨-748, 1⟩ } { no := 1 }) [],
       .mk "eom solution" false (some 3) none .empty []] },
   { name := "xvee", sections :=
      [.mk "eom solution" true none none
        (.eomSolution "EOMEE-CCSD" { totalAu := ⟨-749, 1⟩ } { no := 2 }) []] }]

/-- A root whose irrep number 7 resolves in no irrep index. -/
def c4root : XRoot := mkRoot ⟨-749, 1⟩ 7

/-- The amplitude list of the threshold filter scenario: amplitudes 0.35,
0.08, -0.12 and 0.05. -/
def c8amps : List Single :=
  [⟨1, 2, ⟨35, 2⟩⟩, ⟨1, 3, ⟨8, 2⟩⟩, ⟨2, 2, ⟨-12, 2⟩⟩, ⟨2, 3, ⟨5, 2⟩⟩]

/-- A root used in the excitation energy scenario: total energy -74.800 au. -/
def c9root : XRoot := mkRoot ⟨-748, 1⟩ 1

/-- A mode of symmetry A1. -/
def mA : Mode := { symmetry := "A1", freq := ⟨100, 0⟩, kind := "vibration" }

/-- A mode of symmetry B2. -/
def mB : Mode := { symmetry := "B2", freq := ⟨50, 0⟩, kind := "vibration" }

/-- The Extractor A pipeline output on c3xnccDoc, written out literally. -/
def c3xnccOut : List XRoot :=
  [{ model := "EOMEE-CCSD",
     irrep := { no := 1, name := some "A1", energyNo := some 1 },
     energy := { totalAu := ⟨-748, 1⟩ },
     converged := some c2cr,
     ids := some { no := 0, energyNo := some 0 } }]

/-- The enrichment output on the scenario roots, written out literally. -/
def c1out : List XRoot :=
  [{ model := "EOMEE-CCSD",
     irrep := { no := 2, name := some "B2", energyNo := some 1 },
     energy := { totalAu := ⟨-75040, 3⟩ },
     ids := some { no := 1, energyNo := some 0 } },
   { model := "EOMEE-CCSD",
     irrep := { no := 1, name := some "A1", energyNo := some 1 },
     energy := { totalAu := ⟨-75010, 3⟩ },
     ids := some { no := 0, energyNo := some 1 } },
   { model := "EOMEE-CCSD",
     irrep := { no := 1, name := some "A1", energyNo := some 2 },
     energy := { totalAu := ⟨-75010, 3⟩ },
     ids := some { no := 2, energyNo := some 2 } }]

/-- The third record, in sorted order, of the enriched scenario output. -/
def c1outThird : XRoot :=
  { model := "EOMEE-CCSD",
    irrep := { no := 1, name := some "A1", energyNo := some 2 },
    energy := { totalAu := ⟨-75010, 3⟩ },
    ids := some { no := 2, energyNo := some 2 } }

/-- The single record Extractor B collects from c5doc. -/
def c5root1 : XRoot :=
  { model := "EOMEE-CCSD", irrep := { no := 1 },
    energy := { totalAu := ⟨-748, 1⟩ }, src := some (0, 0) }

/-- Powers of ten are positive. -/
theorem pow10_pos (e : Nat) : 0 < pow10 e := pow_pos (by norm_num) e

/-- Value comparison of decimals is transitive. -/
theorem Dec.le_trans {a b c : Dec} (h1 : a.le b) (h2 : b.le c) : a.le c := by
  unfold Dec.le at h1 h2 ⊢
  have hb := pow10_pos b.exp
  have h1c := mul_le_mul_of_nonneg_right h1 (le_of_lt (pow10_pos c.exp))
  have h2a := mul_le_mul_of_nonneg_right h2 (le_of_lt (pow10_pos a.exp))
  have hch : a.num * pow10 c.exp * pow10 b.exp ≤ c.num * pow10 a.exp * pow10 b.exp := by
    calc a.num * pow10 c.exp * pow10 b.exp
        = a.num * pow10 b.exp * pow10 c.exp := by ring
      _ ≤ b.num * pow10 a.exp * pow10 c.exp := h1c
      _ = b.num * pow10 c.exp * pow10 a.exp := by ring
      _ ≤ c.num * pow10 b.exp * pow10 a.exp := h2a
      _ = c.num * pow10 a.exp * pow10 b.exp := by ring
  exact le_of_mul_le_mul_right hch hb

/-- Value comparison of decimals is total. -/
theorem Dec.le_tot (a b : Dec) : a.le b ∨ b.le a := Int.le_total _ _

/-- Equal valued decimals compare le both ways. -/
theorem Dec.le_of_eqv {a b : Dec} (h : a.eqv b) : a.le b ∧ b.le a :=
  ⟨le_of_eq h, le_of_eq h.symm⟩

/-- The root comparison is transitive. -/
theorem rootLe_trans {a b c : XRoot} (h1 : rootLe a b = true)
    (h2 : rootLe b c = true) : rootLe a c = true := by
  simp only [rootLe, decide_eq_true_eq] at h1 h2 ⊢
  exact Dec.le_trans h1 h2

/-- The root comparison is total. -/
theorem rootLe_tot (a b : XRoot) : rootLe a b = true ∨ rootLe b a = true := by
  simp only [rootLe, decide_eq_true_eq]
  exact Dec.le_tot _ _

/-- Inserting into a list permutes the cons. -/
theorem insertSorted_perm {α : Type} (le : α → α → Bool) (x : α) :
    ∀ m : List α, (insertSorted le x m).Perm (x :: m)
  | [] => List.Perm.refl _
  | y :: ys => by
    unfold insertSorted
    by_cases h : le x y = true
    · rw [if_pos h]
    · rw [if_neg h]
      exact ((insertSorted_perm le x ys).cons y).trans (List.Perm.swap x y ys)

/-- The stable sort permutes its input. -/
theorem stableSort_perm {α : Type} (le : α → α → Bool) :
    ∀ l : List α, (stableSort le l).Perm l
  | [] => List.Perm.refl _
  | x :: xs =>
    (insertSorted_perm le x (stableSort le xs)).trans
      ((stableSort_perm le xs).cons x)

/-- Membership in an insertion. -/
theorem mem_insertSorted {α : Type} {le : α → α → Bool} {x y : α} {m : List α} :
    y ∈ insertSorted le x m ↔ y = x ∨ y ∈ m := by
  rw [(insertSorted_perm le x m).mem_iff]
  exact List.mem_cons

/-- Inserting into a le sorted list keeps it le sorted. -/
theorem pairwise_le_insertSorted {α : Type} {le : α → α → Bool}
    (htrans : ∀ a b c, le a b = true → le b c = true → le a c = true)
    (htot : ∀ a b, le a b = true ∨ le b a = true) (x : α) :
    ∀ m : List α, List.Pairwise (fun a b => le a b = true) m →
      List.Pairwise (fun a b => le a b = true) (insertSorted le x m)
  | [], _ => by simp [insertSorted]
  | y :: ys, h => by
    rcases List.pairwise_cons.mp h with ⟨hy, hys⟩
    unfold insertSorted
    by_cases hxy : le x y = true
    · rw [if_pos hxy]
      refine List.pairwise_cons.mpr ⟨?_, h⟩
      intro z hz
      rcases List.mem_cons.mp hz with rfl | hzys
      · exact hxy
      · exact htrans x y z hxy (hy z hzys)
    · rw [if_neg hxy]
      refine List.pairwise_cons.mpr
        ⟨?_, pairwise_le_insertSorted htrans htot x ys hys⟩
      intro z hz
      rcases mem_insertSorted.mp hz with heq | hzys
      · rw [heq]
        rcases htot x y with hxy2 | hyx
        · exact absurd hxy2 hxy
        · exact hyx
      · exact hy z hzys

/-- The stable sort output is le sorted, for a transitive total comparison. -/
theorem pairwise_le_stableSort {α : Type} {le : α → α → Bool}
    (htrans : ∀ a b c, le a b = true → le b c = true → le a c = true)
    (htot : ∀ a b, le a b = true ∨ le b a = true) :
    ∀ l : List α, List.Pairwise (fun a b => le a b = true) (stableSort le l)
  | [] => .nil
  | x :: xs =>
    pairwise_le_insertSorted htrans htot x _
      (pairwise_le_stableSort htrans htot xs)

/-- Stability of the insertion step: a pairwise relation that holds
vacuously across strictly descending pairs survives an insertion whose
element is related to everything already present. -/
theorem pairwise_rel_insertSorted {α : Type} {le : α → α → Bool}
    {R : α → α → Prop} (x : α) (hvac : ∀ y, le x y = false → R y x) :
    ∀ m : List α, (∀ y ∈ m, R x y) → List.Pairwise R m →
      List.Pairwise R (insertSorted le x m)
  | [], _, _ => by simp [insertSorted]
  | y :: ys, hall, h => by
    rcases List.pairwise_cons.mp h with ⟨hy, hys⟩
    unfold insertSorted
    by_cases hxy : le x y = true
    · rw [if_pos hxy]
      exact List.pairwise_cons.mpr ⟨fun z hz => hall z hz, h⟩
    · rw [if_neg hxy]
      refine List.pairwise_cons.mpr
        ⟨?_, pairwise_rel_insertSorted x hvac ys
          (fun z hz => hall z (List.mem_cons_of_mem y hz)) hys⟩
      intro z hz
      rcases mem_insertSorted.mp hz with rfl | hzys
      · exact hvac y (Bool.eq_false_iff.mpr hxy)
      · exact hy z hzys

/-- Stability of the sort: a pairwise relation that holds vacuously across
strictly descending pairs is preserved by the stable sort. -/
theorem pairwise_rel_stableSort {α : Type} {le : α → α → Bool}
    {R : α → α → Prop} (hvac : ∀ x y, le x y = false → R y x) :
    ∀ l : List α, List.Pairwise R l → List.Pairwise R (stableSort le l)
  | [], _ => .nil
  | x :: xs, h => by
    rcases List.pairwise_cons.mp h with ⟨hx, hxs⟩
    exact pairwise_rel_insertSorted x (hvac x) _
      (fun y hy => hx y ((stableSort_perm le xs).mem_iff.mp hy))
      (pairwise_rel_stableSort hvac xs hxs)

/-- Unfolding of enrichRoots on a cons whose head has no irrep index entry. -/
theorem enrichRoots_cons_none {idx : List (Nat × String)} {r : XRoot}
    (doc : Document) (cnt : List (Nat × Nat)) (rs : List XRoot)
    (h : lookupName idx r.irrep.no = none) :
    enrichRoots idx doc cnt (r :: rs) = .error .keyError := by
  simp [enrichRoots, h]

/-- Unfolding of enrichRoots on a cons whose head resolves in the index. -/
theorem enrichRoots_cons_some {idx : List (Nat × String)} {r : XRoot} {nm : String}
    (doc : Document) (cnt : List (Nat × Nat)) (rs : List XRoot)
    (h : lookupName idx r.irrep.no = some nm) :
    enrichRoots idx doc cnt (r :: rs) =
      (enrichRoots idx
          (writeIrrep doc r.src ⟨r.irrep.no, some nm, some ((lookupCnt cnt r.irrep.no).getD 0 + 1)⟩)
          (setCnt cnt r.irrep.no ((lookupCnt cnt r.irrep.no).getD 0 + 1)) rs).map
        (fun p => (p.1,
          { r with irrep := ⟨r.irrep.no, some nm, some ((lookupCnt cnt r.irrep.no).getD 0 + 1)⟩ } :: p.2)) := by
  have : enrichRoots idx doc cnt (r :: rs) =
      match lookupName idx r.irrep.no with
      | none => .error .keyError
      | some nm =>
        (enrichRoots idx
            (writeIrrep doc r.src ⟨r.irrep.no, some nm, some ((lookupCnt cnt r.irrep.no).getD 0 + 1)⟩)
            (setCnt cnt r.irrep.no ((lookupCnt cnt r.irrep.no).getD 0 + 1)) rs).map
          (fun p => (p.1,
            { r with irrep := ⟨r.irrep.no, some nm, some ((lookupCnt cnt r.irrep.no).getD 0 + 1)⟩ } :: p.2)) := rfl
  rw [this, h]

/-- enrichRoots halts with an error when a root of the list has no entry in
the irrep index. -/
theorem enrichRoots_error {idx : List (Nat × String)} {r : XRoot}
    (hn : lookupName idx r.irrep.no = none) :
    ∀ (l : List XRoot) (doc : Document) (cnt : List (Nat × Nat)), r ∈ l →
      ∃ e, enrichRoots idx doc cnt l = .error e := by
  intro l
  induction l with
  | nil => intro doc cnt h; cases h
  | cons a as ih =>
    intro doc cnt h
    rcases List.mem_cons.mp h with heq | hmem
    · subst heq
      exact ⟨.keyError, enrichRoots_cons_none doc cnt as hn⟩
    · cases ha : lookupName idx a.irrep.no with
      | none => exact ⟨.keyError, enrichRoots_cons_none doc cnt as ha⟩
      | some nm =>
        obtain ⟨e, he⟩ := ih
          (writeIrrep doc a.src ⟨a.irrep.no, some nm, some ((lookupCnt cnt a.irrep.no).getD 0 + 1)⟩)
          (setCnt cnt a.irrep.no ((lookupCnt cnt a.irrep.no).getD 0 + 1)) hmem
        exact ⟨e, by rw [enrichRoots_cons_some doc cnt as ha, he]; rfl⟩

/-- Every record that enrichRoots outputs carries a resolved irrep name. -/
theorem enrichRoots_names {idx : List (Nat × String)} :
    ∀ (l : List XRoot) (doc : Document) (cnt : List (Nat × Nat))
      (doc2 : Document) (out : List XRoot),
      enrichRoots idx doc cnt l = .ok (doc2, out) →
      ∀ r ∈ out, (r.irrep.name).isSome := by
  intro l
  induction l with
  | nil =>
    intro doc cnt doc2 out h r hr
    simp only [enrichRoots, Except.ok.injEq, Prod.mk.injEq] at h
    rcases h with ⟨h1, h2⟩
    subst h2
    exact (List.not_mem_nil r hr).elim
  | cons a as ih =>
    intro doc cnt doc2 out h r hr
    cases ha : lookupName idx a.irrep.no with
    | none =>
      rw [enrichRoots_cons_none doc cnt as ha] at h
      exact Except.noConfusion h
    | some nm =>
      rw [enrichRoots_cons_some doc cnt as ha] at h
      cases hE : enrichRoots idx
          (writeIrrep doc a.src ⟨a.irrep.no, some nm, some ((lookupCnt cnt a.irrep.no).getD 0 + 1)⟩)
          (setCnt cnt a.irrep.no ((lookupCnt cnt a.irrep.no).getD 0 + 1)) as with
      | error e =>
        rw [hE] at h
        exact Except.noConfusion h
      | ok p =>
        obtain ⟨pdoc, pout⟩ := p
        rw [hE] at h
        simp only [Except.map, Except.ok.injEq, Prod.mk.injEq] at h
        rcases h with ⟨h1, h2⟩
        subst h2
        rcases List.mem_cons.mp hr with heq | hm
        · rw [heq]
          rfl
        · exact ih _ _ pdoc pout hE r hm

/-- The irrep index fold keeps its accumulator on a document with no SCF
program. -/
theorem scfFold_nil (m : List (Nat × String)) :
    ∀ doc : Document,
      (∀ prog ∈ doc, prog.name ≠ "xvscf" ∧ prog.name ≠ "xdqcscf") →
      List.foldl (fun m prog =>
        if prog.name == "xvscf" || prog.name == "xdqcscf" then
          prog.sections.foldl mosFold m
        else m) m doc = m := by
  intro doc
  induction doc generalizing m with
  | nil => intro _; rfl
  | cons p ps ih =>
    intro h
    have h1 := h p (List.mem_cons_self p ps)
    have hcond : (p.name == "xvscf" || p.name == "xdqcscf") = false := by
      simp only [Bool.or_eq_false_iff, beq_eq_false_iff_ne]
      exact ⟨h1.1, h1.2⟩
    rw [List.foldl_cons, hcond]
    simp only [Bool.false_eq_true, if_false]
    exact ih m (fun q hq => h q (List.mem_cons_of_mem p hq))

/-- With no SCF program in the document the irrep index is empty. -/
theorem get_irrep_no_to_name_empty (doc : Document)
    (h : ∀ prog ∈ doc, prog.name ≠ "xvscf" ∧ prog.name ≠ "xdqcscf") :
    get_irrep_no_to_name doc = [] :=
  scfFold_nil [] doc h

/-- Claim C4: an irrep number that the irrep index does not resolve makes
the name enrichment step raise an error that terminates the run; every
record of a successful enrichment carries a resolved irrep name; and with
no irrep defining SCF program the irrep index is empty, so a non empty root
list always hits the error. -/
theorem c4_unresolved_irrep_halts (doc : Document) (roots : List XRoot) :
    ((∃ r ∈ roots, lookupName (get_irrep_no_to_name doc) r.irrep.no = none) →
      ∃ e, add_irrep_energy_no_and_name doc roots = .error e) ∧
    (∀ doc2 out, add_irrep_energy_no_and_name doc roots = .ok (doc2, out) →
      ∀ r ∈ out, (r.irrep.name).isSome) ∧
    ((∀ prog ∈ doc, prog.name ≠ "xvscf" ∧ prog.name ≠ "xdqcscf") →
      get_irrep_no_to_name doc = []) := by
  refine ⟨?_, ?_, get_irrep_no_to_name_empty doc⟩
  · rintro ⟨r, hr, hn⟩
    exact enrichRoots_error hn _ doc []
      ((stableSort_perm rootLe roots).mem_iff.mpr hr)
  · intro doc2 out h r hr
    exact enrichRoots_names (stableSort rootLe roots) doc [] doc2 out h r hr

/-- Witness for claim C4: one root of irrep number 7 against the empty
document, whose irrep index is empty. -/
theorem c4_witness :
    ∃ e, add_irrep_energy_no_and_name ([] : Document) [c4root] = .error e :=
  (c4_unresolved_irrep_halts [] [c4root]).1
    ⟨c4root, List.mem_singleton.mpr rfl, rfl⟩

/-- An invariant carried through a monadic fold over Except. -/
theorem foldlM_except_inv {α β : Type} {P : β → Prop} {f : β → α → Except PyError β}
    (hf : ∀ b a b2, P b → f b a = .ok b2 → P b2) :
    ∀ (l : List α) (b b2 : β), P b → l.foldlM f b = .ok b2 → P b2
  | [], b, b2, hP, h => by
    injection h with h2
    rw [← h2]
    exact hP
  | a :: as, b, b2, hP, h => by
    cases hfa : f b a with
    | error e =>
      rw [List.foldlM_cons, hfa] at h
      exact Except.noConfusion h
    | ok b1 =>
      rw [List.foldlM_cons, hfa] at h
      exact foldlM_except_inv hf as b1 b2 (hf b a b1 hP hfa) h

/-- A subsection scan never touches the collected roots. -/
theorem xnccScanSubsec_roots (st : XnccState) (sub : Sec) (st2 : XnccState)
    (h : xnccScanSubsec st sub = .ok st2) : st2.roots = st.roots := by
  unfold xnccScanSubsec at h
  split at h
  · split at h
    · injection h with h2
      rw [← h2]
    · exact Except.noConfusion h
  · split at h
    · split at h
      · injection h with h2
        rw [← h2]
      · exact Except.noConfusion h
    · injection h with h2
      rw [← h2]

/-- The eom root scan appends only records without an alias. -/
theorem xnccScanRoot_src (ir : IrrepData) (st : XnccState) (root : Sec)
    (st2 : XnccState) (h : xnccScanRoot ir st root = .ok st2)
    (hP : ∀ r ∈ st.roots, r.src = none) :
    ∀ r ∈ st2.roots, r.src = none := by
  unfold xnccScanRoot at h
  split at h
  · injection h with h2
    rw [← h2]
    exact hP
  · split at h
    · rename_i xdat model heqdat
      cases hfold : root.sections.foldlM xnccScanSubsec st with
      | error e =>
        rw [hfold] at h
        exact Except.noConfusion h
      | ok st1 =>
        rw [hfold] at h
        replace h : (match st1.cr, st1.en with
          | some c, some e =>
            Except.ok { st1 with roots := st1.roots ++
              [{ model := model, irrep := ir, energy := e, converged := some c }] }
          | _, _ => Except.error PyError.nameError) = Except.ok st2 := h
        have hroots : st1.roots = st.roots :=
          foldlM_except_inv
            (fun b a b2 hPb hfb => (xnccScanSubsec_roots b a b2 hfb).trans hPb)
            root.sections st st1 rfl hfold
        cases hcr : st1.cr with
        | none =>
          rw [hcr] at h
          exact Except.noConfusion h
        | some c =>
          rw [hcr] at h
          cases hen : st1.en with
          | none =>
            rw [hen] at h
            exact Except.noConfusion h
          | some e =>
            rw [hen] at h
            injection h with h2
            rw [← h2]
            intro r hr
            rcases List.mem_append.mp hr with hm | hm
            · exact hP r (hroots ▸ hm)
            · rcases List.mem_singleton.mp hm with rfl
              rfl
    · exact Except.noConfusion h

/-- The irrep container scan appends only records without an alias. -/
theorem xnccScanIrrep_src (st : XnccState) (irrepSec : Sec) (st2 : XnccState)
    (h : xnccScanIrrep st irrepSec = .ok st2)
    (hP : ∀ r ∈ st.roots, r.src = none) :
    ∀ r ∈ st2.roots, r.src = none := by
  unfold xnccScanIrrep at h
  split at h
  · injection h with h2
    rw [← h2]
    exact hP
  · split at h
    · rename_i ir heq
      exact foldlM_except_inv
        (fun b a b2 hPb hfb => xnccScanRoot_src ir b a b2 hfb hPb)
        irrepSec.sections st st2 hP h
    · exact Except.noConfusion h

/-- The eom section scan appends only records without an alias. -/
theorem xnccScanEom_src (st : XnccState) (eom : Sec) (st2 : XnccState)
    (h : xnccScanEom st eom = .ok st2)
    (hP : ∀ r ∈ st.roots, r.src = none) :
    ∀ r ∈ st2.roots, r.src = none := by
  unfold xnccScanEom at h
  split at h
  · injection h with h2
    rw [← h2]
    exact hP
  · exact foldlM_except_inv
      (fun b a b2 hPb hfb => xnccScanIrrep_src b a b2 hfb hPb)
      eom.sections st st2 hP h

/-- Every record of Extractor A carries no alias into the document: the
irrep dictionary is copied with dict(irrep_data). -/
theorem collect_xncc_srcNone (doc : Document) (roots : List XRoot)
    (h : collect_eom_roots_xncc doc = .ok roots) :
    ∀ r ∈ roots, r.src = none := by
  unfold collect_eom_roots_xncc at h
  split at h
  · injection h with h2
    rw [← h2]
    intro r hr
    exact (List.not_mem_nil r hr).elim
  · rename_i xncc heq
    cases hE : xncc.sections.foldlM xnccScanEom {} with
    | error e =>
      rw [hE] at h
      exact Except.noConfusion h
    | ok st =>
      rw [hE] at h
      simp only [Except.map, Except.ok.injEq] at h
      rw [← h]
      exact foldlM_except_inv
        (fun b a b2 hPb hfb => xnccScanEom_src b a b2 hfb hPb)
        xncc.sections {} st (fun r hr => (List.not_mem_nil r hr).elim) hE

/-- The second component of an enumFrom entry belongs to the list. -/
theorem snd_mem_of_mem_enumFrom {α : Type} :
    ∀ (l : List α) (n : Nat) (p : Nat × α), p ∈ List.enumFrom n l → p.2 ∈ l
  | [], _, p, h => absurd h (List.not_mem_nil p)
  | a :: as, n, p, h => by
    rcases List.mem_cons.mp h with heq | hm
    · rw [heq]
      exact List.mem_cons_self a as
    · exact List.mem_cons_of_mem a (snd_mem_of_mem_enumFrom as (n + 1) p hm)

/-- add_root_ids changes only the ids of the records, so records without an
alias stay without an alias. -/
theorem add_root_ids_src (roots : List XRoot)
    (h : ∀ r ∈ roots, r.src = none) :
    ∀ r ∈ add_root_ids roots, r.src = none := by
  intro r hr
  unfold add_root_ids at hr
  simp only [List.mem_map] at hr
  obtain ⟨p, hp, rfl⟩ := hr
  have hp2 : p.2 ∈ stableSort rootLe
      (roots.enum.map (fun q => { q.2 with ids := some { no := q.1 } })) :=
    snd_mem_of_mem_enumFrom _ 0 p hp
  have hp3 : p.2 ∈ roots.enum.map (fun q => { q.2 with ids := some { no := q.1 } }) :=
    (stableSort_perm rootLe _).mem_iff.mp hp2
  simp only [List.mem_map] at hp3
  obtain ⟨q, hq, hpq⟩ := hp3
  have hq2 : q.2 ∈ roots := snd_mem_of_mem_enumFrom _ 0 q hq
  show p.2.src = none
  have hsame : p.2.src = q.2.src := by rw [← hpq]
  rw [hsame]
  exact h q.2 hq2

/-- enrichRoots leaves the document unchanged when no processed record
aliases it. -/
theorem enrichRoots_doc_const {idx : List (Nat × String)} :
    ∀ (l : List XRoot) (doc : Document) (cnt : List (Nat × Nat))
      (doc2 : Document) (out : List XRoot),
      (∀ r ∈ l, r.src = none) →
      enrichRoots idx doc cnt l = .ok (doc2, out) → doc2 = doc
  | [], doc, cnt, doc2, out, _, h => by
    simp only [enrichRoots, Except.ok.injEq, Prod.mk.injEq] at h
    exact h.1.symm
  | a :: as, doc, cnt, doc2, out, hsrc, h => by
    cases ha : lookupName idx a.irrep.no with
    | none =>
      rw [enrichRoots_cons_none doc cnt as ha] at h
      exact Except.noConfusion h
    | some nm =>
      rw [enrichRoots_cons_some doc cnt as ha] at h
      cases hE : enrichRoots idx
          (writeIrrep doc a.src ⟨a.irrep.no, some nm, some ((lookupCnt cnt a.irrep.no).getD 0 + 1)⟩)
          (setCnt cnt a.irrep.no ((lookupCnt cnt a.irrep.no).getD 0 + 1)) as with
      | error e =>
        rw [hE] at h
        exact Except.noConfusion h
      | ok p =>
        obtain ⟨pdoc, pout⟩ := p
        rw [hE] at h
        simp only [Except.map, Except.ok.injEq, Prod.mk.injEq] at h
        have hsrc_a : a.src = none := hsrc a (List.mem_cons_self a as)
        have hdoc : pdoc = writeIrrep doc a.src
            ⟨a.irrep.no, some nm, some ((lookupCnt cnt a.irrep.no).getD 0 + 1)⟩ :=
          enrichRoots_doc_const as _ _ pdoc pout
            (fun r hr => hsrc r (List.mem_cons_of_mem a hr)) hE
        rw [← h.1, hdoc, hsrc_a]
        rfl

/-- Claim C3 amended: the Extractor A pipeline of print_roots.py leaves the
document unchanged, because its records copy the irrep dictionary instead
of aliasing it. (The Extractor B pipeline does mutate the document through
its aliases, as the counterexample shows.) -/
theorem c3_xncc_pipeline_preserves_doc (doc doc2 : Document) (out : List XRoot)
    (h : xnccPipeline doc = .ok (doc2, out)) : doc2 = doc := by
  unfold xnccPipeline at h
  cases hc : collect_eom_roots_xncc doc with
  | error e =>
    rw [hc] at h
    exact Except.noConfusion h
  | ok roots =>
    rw [hc] at h
    have hsrc : ∀ r ∈ stableSort rootLe (add_root_ids roots), r.src = none :=
      fun r hr =>
        add_root_ids_src roots (collect_xncc_srcNone doc roots hc) r
          ((stableSort_perm rootLe _).mem_iff.mp hr)
    exact enrichRoots_doc_const (stableSort rootLe (add_root_ids roots))
      doc [] doc2 out hsrc h

/-- Witness for the amended claim C3: on c3xnccDoc the Extractor A pipeline
succeeds and hands back the document unchanged. -/
theorem c3_witness :
    xnccPipeline c3xnccDoc = .ok (c3xnccDoc, c3xnccOut) ∧ c3xnccDoc = c3xnccDoc :=
  ⟨by rfl, c3_xncc_pipeline_preserves_doc c3xnccDoc c3xnccDoc c3xnccOut (by rfl)⟩

/-- The second component of a find? over an enumFrom is the find? of the
underlying list. -/
theorem find?_enumFrom_snd {α : Type} (q : α → Bool) :
    ∀ (l : List α) (n : Nat),
      ((List.enumFrom n l).find? (fun p => q p.2)).map Prod.snd = l.find? q
  | [], _ => rfl
  | a :: as, n => by
    show ((List.find? (fun p => q p.2) ((n, a) :: List.enumFrom (n + 1) as)).map
      Prod.snd) = List.find? q (a :: as)
    rw [List.find?_cons, List.find?_cons]
    cases hq : q a with
    | true => rfl
    | false => exact find?_enumFrom_snd q as (n + 1)

/-- The scan of one xvee program produces exactly one record per ok eom
solution section, in order and with the data of that section, and one
diagnostic per not ok eom solution section with the fallback bounds. -/
theorem xveeScan_spec (pi : Nat) :
    ∀ (si : Nat) (secs : List Sec) (roots : List XRoot) (diags : List Diag),
      xveeScan pi si secs = .ok (roots, diags) →
      roots.map (fun r => (r.model, r.energy, r.irrep)) =
        (secs.filter (fun s => s.name == "eom solution" && s.ok)).filterMap
          (fun s => match s.data with
            | .eomSolution m e ir => some (m, e, ir)
            | _ => none) ∧
      diags = (secs.filter (fun s => s.name == "eom solution" && !s.ok)).map
          (fun s => ⟨s.name, (s.startLine).getD 0, (s.endLine).getD (-1)⟩)
  | si, [], roots, diags, h => by
    injection h with h2
    rw [← (Prod.mk.injEq _ _ _ _).mp h2 |>.1, ← (Prod.mk.injEq _ _ _ _).mp h2 |>.2]
    exact ⟨rfl, rfl⟩
  | si, s :: rest, roots, diags, h => by
    unfold xveeScan at h
    by_cases hname : (s.name != "eom solution") = true
    · rw [if_pos hname] at h
      have hfalse : (s.name == "eom solution") = false := by
        simpa using hname
      obtain ⟨h1, h2⟩ := xveeScan_spec pi (si + 1) rest roots diags h
      constructor
      · rw [h1, List.filter_cons, hfalse]
        rfl
      · rw [h2, List.filter_cons, hfalse]
        rfl
    · rw [if_neg hname] at h
      have htrue : (s.name == "eom solution") = true := by
        cases hcase : s.name == "eom solution" with
        | true => rfl
        | false => exact absurd (by simp [bne, hcase]) hname
      by_cases hok : s.ok = false
      · rw [if_pos hok] at h
        cases hrec : xveeScan pi (si + 1) rest with
        | error e =>
          rw [hrec] at h
          exact Except.noConfusion h
        | ok p =>
          obtain ⟨pr, pd⟩ := p
          rw [hrec] at h
          simp only [Except.map, Except.ok.injEq, Prod.mk.injEq] at h
          obtain ⟨h1, h2⟩ := h
          obtain ⟨hm1, hm2⟩ := xveeScan_spec pi (si + 1) rest pr pd hrec
          constructor
          · rw [← h1, hm1]
            simp [List.filter_cons, htrue, hok]
          · rw [← h2, hm2]
            simp [List.filter_cons, htrue, hok]
      · rw [if_neg hok] at h
        have hoktrue : s.ok = true := by
          cases hcase : s.ok with
          | true => rfl
          | false => exact absurd hcase hok
        cases hd : s.data with
        | eomSolution m e ir =>
          rw [hd] at h
          replace h : (xveeScan pi (si + 1) rest).map (fun p =>
              ({ model := m, irrep := ir, energy := e,
                 src := some (pi, si) } :: p.1, p.2)) = Except.ok (roots, diags) := h
          cases hrec : xveeScan pi (si + 1) rest with
          | error e2 =>
            rw [hrec] at h
            exact Except.noConfusion h
          | ok p =>
            obtain ⟨pr, pd⟩ := p
            rw [hrec] at h
            simp only [Except.map, Except.ok.injEq, Prod.mk.injEq] at h
            obtain ⟨h1, h2⟩ := h
            obtain ⟨hm1, hm2⟩ := xveeScan_spec pi (si + 1) rest pr pd hrec
            constructor
            · rw [← h1, List.map_cons, hm1]
              simp [List.filter_cons, List.filterMap_cons, htrue, hoktrue, hd]
            · rw [← h2, hm2]
              simp [List.filter_cons, htrue, hoktrue]
        | empty => rw [hd] at h; exact Except.noConfusion h
        | basis v => rw [hd] at h; exact Except.noConfusion h
        | mos o v => rw [hd] at h; exact Except.noConfusion h
        | eomRoot m => rw [hd] at h; exact Except.noConfusion h
        | convergedRoot c => rw [hd] at h; exact Except.noConfusion h
        | eomEnergy e => rw [hd] at h; exact Except.noConfusion h
        | irrepData ir => rw [hd] at h; exact Except.noConfusion h
        | normalCoordinates n => rw [hd] at h; exact Except.noConfusion h
        | gradient g => rw [hd] at h; exact Except.noConfusion h
        | energyTotal e => rw [hd] at h; exact Except.noConfusion h

/-- Claim C5 amended: the output of Extractor B covers exactly the ok eom
solution sections of the first xvee program, with the data of those
sections, and one diagnostic per not ok eom solution section of that
program naming the line span with fallback bounds 0 and -1. -/
theorem c5_first_xvee_exactly_ok (doc : Document) (roots : List XRoot)
    (diags : List Diag)
    (h : collect_eom_roots_xvee doc = .ok (roots, diags)) :
    roots.map (fun r => (r.model, r.energy, r.irrep)) = xveeOkSolutionsFirst doc ∧
    diags = xveeNotOkDiagsFirst doc := by
  unfold collect_eom_roots_xvee at h
  unfold xveeOkSolutionsFirst xveeNotOkDiagsFirst
  split at h
  · rename_i heq
    have hfind : doc.find? (fun p => p.name == "xvee") = none := by
      rw [← find?_enumFrom_snd (fun p => p.name == "xvee") doc 0]
      have : List.enumFrom 0 doc = doc.enum := rfl
      rw [this, heq]
      rfl
    rw [hfind]
    injection h with h2
    constructor
    · rw [← (Prod.mk.injEq _ _ _ _).mp h2 |>.1]
      rfl
    · rw [← (Prod.mk.injEq _ _ _ _).mp h2 |>.2]
  · rename_i pi prog heq
    have hfind : doc.find? (fun p => p.name == "xvee") = some prog := by
      rw [← find?_enumFrom_snd (fun p => p.name == "xvee") doc 0]
      have : List.enumFrom 0 doc = doc.enum := rfl
      rw [this, heq]
      rfl
    rw [hfind]
    exact xveeScan_spec pi 0 prog.sections roots diags h

/-- Witness for the amended claim C5 at c5doc: one valid record from the
first xvee program and one diagnostic with fallback end bound -1. -/
theorem c5_witness :
    ([c5root1].map (fun r => (r.model, r.energy, r.irrep)) =
      xveeOkSolutionsFirst c5doc) ∧
    [(⟨"eom solution", 3, -1⟩ : Diag)] = xveeNotOkDiagsFirst c5doc :=
  c5_first_xvee_exactly_ok c5doc [c5root1] [⟨"eom solution", 3, -1⟩] (by rfl)

/-- Semantics of a store into the counter dictionary. -/
theorem lookupCnt_setCnt :
    ∀ (cnt : List (Nat × Nat)) (m c n : Nat),
      lookupCnt (setCnt cnt m c) n = if n = m then some c else lookupCnt cnt n
  | [], m, c, n => by
    simp only [setCnt, lookupCnt, List.find?_cons, List.find?_nil]
    by_cases h : n = m
    · subst h
      simp
    · rw [if_neg h]
      have hmn : (m == n) = false := beq_eq_false_iff_ne.mpr (fun hmn => h hmn.symm)
      simp [hmn]
  | p :: rest, m, c, n => by
    by_cases hpm : (p.1 == m) = true
    · have hps : setCnt (p :: rest) m c = (m, c) :: rest := by
        simp [setCnt, hpm]
      rw [hps]
      simp only [lookupCnt, List.find?_cons]
      by_cases h : n = m
      · subst h
        simp
      · have hmn : (m == n) = false := beq_eq_false_iff_ne.mpr (fun hmn => h hmn.symm)
        have hpm2 : p.1 = m := by simpa using hpm
        have hpn : (p.1 == n) = false := by rw [hpm2]; exact hmn
        simp [hmn, hpn, if_neg h, lookupCnt]
    · have hps : setCnt (p :: rest) m c = p :: setCnt rest m c := by
        simp [setCnt, hpm]
      rw [hps]
      simp only [lookupCnt, List.find?_cons]
      by_cases hpn : (p.1 == n) = true
      · have hpn2 : p.1 = n := by simpa using hpn
        have hnm : n ≠ m := by
          intro hnmeq
          exact hpm (by simp [hpn2, hnmeq])
        simp [hpn, if_neg hnm, lookupCnt, List.find?_cons]
      · have hpnf : (p.1 == n) = false := by
          cases hcase : p.1 == n with
          | true => exact absurd hcase hpn
          | false => rfl
        simp only [hpnf]
        have hrec := lookupCnt_setCnt rest m c n
        simp only [lookupCnt] at hrec
        exact hrec

/-- Full characterization of the records enrichRoots outputs: positions,
irrep numbers and energies are preserved, and the per-irrep counter value
assigned at position i is the running count of that irrep among the first
i + 1 records, on top of whatever the counter dictionary already held. -/
theorem enrichRoots_out {idx : List (Nat × String)} :
    ∀ (l : List XRoot) (doc : Document) (cnt : List (Nat × Nat))
      (doc2 : Document) (out : List XRoot),
      enrichRoots idx doc cnt l = .ok (doc2, out) →
      out.length = l.length ∧
      ∀ (i : Nat) (a b : XRoot), l[i]? = some a → out[i]? = some b →
        b.irrep.no = a.irrep.no ∧ b.energy = a.energy ∧
        b.irrep.energyNo = some ((lookupCnt cnt a.irrep.no).getD 0 +
          (l.take (i + 1)).countP (fun q => q.irrep.no == a.irrep.no))
  | [], doc, cnt, doc2, out, h => by
    simp only [enrichRoots, Except.ok.injEq, Prod.mk.injEq] at h
    rcases h with ⟨h1, h2⟩
    subst h2
    exact ⟨rfl, fun i a b ha hb => absurd ha (by simp)⟩
  | a :: as, doc, cnt, doc2, out, h => by
    cases ha : lookupName idx a.irrep.no with
    | none =>
      rw [enrichRoots_cons_none doc cnt as ha] at h
      exact Except.noConfusion h
    | some nm =>
      rw [enrichRoots_cons_some doc cnt as ha] at h
      cases hE : enrichRoots idx
          (writeIrrep doc a.src ⟨a.irrep.no, some nm, some ((lookupCnt cnt a.irrep.no).getD 0 + 1)⟩)
          (setCnt cnt a.irrep.no ((lookupCnt cnt a.irrep.no).getD 0 + 1)) as with
      | error e =>
        rw [hE] at h
        exact Except.noConfusion h
      | ok p =>
        obtain ⟨pdoc, pout⟩ := p
        rw [hE] at h
        simp only [Except.map, Except.ok.injEq, Prod.mk.injEq] at h
        obtain ⟨h1, h2⟩ := h
        obtain ⟨hlen, hspec⟩ := enrichRoots_out as _ _ pdoc pout hE
        subst h2
        refine ⟨by simp [hlen], ?_⟩
        intro i x y hx hy
        cases i with
        | zero =>
          rw [List.getElem?_cons_zero] at hx hy
          injection hx with hx2
          injection hy with hy2
          subst hx2
          rw [← hy2]
          refine ⟨rfl, rfl, ?_⟩
          show some ((lookupCnt cnt a.irrep.no).getD 0 + 1) = _
          rw [List.take_succ_cons, List.take_zero, List.countP_cons]
          simp
        | succ j =>
          rw [List.getElem?_cons_succ] at hx hy
          obtain ⟨hno, hen, hcnt⟩ := hspec j x y hx hy
          refine ⟨hno, hen, ?_⟩
          rw [hcnt, lookupCnt_setCnt, List.take_succ_cons, List.countP_cons]
          by_cases hsame : x.irrep.no = a.irrep.no
          · rw [if_pos hsame, hsame]
            have : (a.irrep.no == a.irrep.no) = true := by simp
            rw [this]
            simp only [Option.getD_some, if_true]
            congr 1
            omega
          · rw [if_neg hsame]
            have : (a.irrep.no == x.irrep.no) = false :=
              beq_eq_false_iff_ne.mpr (fun hmn => hsame hmn.symm)
            rw [this]
            simp

/-- Claim C1 amended: the enrichment iterates the records in energy sorted
order, and the per-irrep counter assigns to the record at sorted position i
the number of records of its irrep among the first i + 1, so the first
record of irrep K gets 1, the next gets 2, and so on. -/
theorem c1_per_irrep_counter (doc : Document) (roots : List XRoot)
    (doc2 : Document) (out : List XRoot)
    (h : add_irrep_energy_no_and_name doc roots = .ok (doc2, out)) :
    List.Pairwise (fun a b : XRoot => a.energy.totalAu.le b.energy.totalAu) out ∧
    ∀ (i : Nat) (r : XRoot), out[i]? = some r →
      r.irrep.energyNo =
        some ((out.take (i + 1)).countP (fun q => q.irrep.no == r.irrep.no)) := by
  obtain ⟨hlen, hspec⟩ :=
    enrichRoots_out (stableSort rootLe roots) doc [] doc2 out h
  have hmapno : out.map (fun r => r.irrep.no) =
      (stableSort rootLe roots).map (fun r => r.irrep.no) := by
    apply List.ext_getElem?
    intro i
    rw [List.getElem?_map, List.getElem?_map]
    by_cases hi : i < out.length
    · have hil : i < (stableSort rootLe roots).length := by omega
      have ha := List.getElem?_eq_getElem hil
      have hb := List.getElem?_eq_getElem hi
      obtain ⟨hno, _, _⟩ := hspec i _ _ ha hb
      rw [ha, hb]
      simp [hno]
    · have h1 : out[i]? = none := List.getElem?_eq_none (by omega)
      have h2 : (stableSort rootLe roots)[i]? = none :=
        List.getElem?_eq_none (by omega)
      rw [h1, h2]
  have hmapen : out.map (fun r => r.energy) =
      (stableSort rootLe roots).map (fun r => r.energy) := by
    apply List.ext_getElem?
    intro i
    rw [List.getElem?_map, List.getElem?_map]
    by_cases hi : i < out.length
    · have hil : i < (stableSort rootLe roots).length := by omega
      have ha := List.getElem?_eq_getElem hil
      have hb := List.getElem?_eq_getElem hi
      obtain ⟨_, hen, _⟩ := hspec i _ _ ha hb
      rw [ha, hb]
      simp [hen]
    · have h1 : out[i]? = none := List.getElem?_eq_none (by omega)
      have h2 : (stableSort rootLe roots)[i]? = none :=
        List.getElem?_eq_none (by omega)
      rw [h1, h2]
  constructor
  · have hl := @pairwise_le_stableSort XRoot rootLe
      (fun a b c h1 h2 => rootLe_trans h1 h2) rootLe_tot roots
    have hl2 : List.Pairwise (fun x y : EnergyData => x.totalAu.le y.totalAu)
        ((stableSort rootLe roots).map (fun r => r.energy)) := by
      rw [List.pairwise_map]
      exact hl.imp (fun hab => by simpa [rootLe, decide_eq_true_eq] using hab)
    rw [← hmapen, List.pairwise_map] at hl2
    exact hl2
  · intro i r hri
    have hi : i < out.length := (List.getElem?_eq_some.mp hri).1
    have hil : i < (stableSort rootLe roots).length := by omega
    have ha := List.getElem?_eq_getElem hil
    obtain ⟨hno, hen, hcnt⟩ := hspec i _ r ha hri
    rw [hcnt]
    have h0 : ∀ x : Nat, (lookupCnt ([] : List (Nat × Nat)) x).getD 0 = 0 :=
      fun x => rfl
    rw [h0, Nat.zero_add]
    congr 1
    have key : ∀ (ll : List XRoot) (n : Nat),
        (ll.take (i + 1)).countP (fun q => q.irrep.no == n) =
        ((ll.map (fun r => r.irrep.no)).take (i + 1)).countP (fun x => x == n) := by
      intro ll n
      rw [← List.map_take, List.countP_map]
      rfl
    rw [key, key, ← hmapno, hno]

/-- Witness for the amended claim C1 on the scenario: the third record in
sorted order belongs to irrep 1 and receives per-irrep number 2, the count
of irrep 1 records among the first three. -/
theorem c1_witness :
    c1outThird.irrep.energyNo =
      some ((c1out.take 3).countP (fun q => q.irrep.no == c1outThird.irrep.no)) :=
  (c1_per_irrep_counter c1doc (add_root_ids c1roots) c1doc c1out (by rfl)).2 2
    c1outThird (by rfl)

/-- Element lookup in an enumFrom. -/
theorem getElem?_enumFrom {α : Type} :
    ∀ (n : Nat) (l : List α) (i : Nat),
      (List.enumFrom n l)[i]? = l[i]?.map (fun a => (n + i, a))
  | n, [], i => by simp
  | n, a :: as, 0 => by simp [List.enumFrom]
  | n, a :: as, i + 1 => by
    have h1 : (List.enumFrom n (a :: as))[i + 1]? = (List.enumFrom (n + 1) as)[i]? := by
      show ((n, a) :: List.enumFrom (n + 1) as)[i + 1]? = _
      rw [List.getElem?_cons_succ]
    rw [h1, getElem?_enumFrom (n + 1) as i, List.getElem?_cons_succ]
    have h2 : n + 1 + i = n + (i + 1) := by omega
    rw [h2]

/-- A member of an enumFrom is an indexed element of the list. -/
theorem mem_enumFrom_ex {α : Type} :
    ∀ (l : List α) (n : Nat) (p : Nat × α),
      p ∈ List.enumFrom n l → ∃ k, p.1 = n + k ∧ l[k]? = some p.2
  | [], _, p, h => absurd h (List.not_mem_nil p)
  | a :: as, n, p, h => by
    rcases List.mem_cons.mp h with heq | hm
    · subst heq
      exact ⟨0, by simp, by simp⟩
    · obtain ⟨k, hk1, hk2⟩ := mem_enumFrom_ex as (n + 1) p hm
      exact ⟨k + 1, by omega, by rw [List.getElem?_cons_succ]; exact hk2⟩

/-- The first components of an enumFrom are strictly increasing. -/
theorem pairwise_enumFrom_fst_lt {α : Type} :
    ∀ (l : List α) (n : Nat),
      List.Pairwise (fun p q : Nat × α => p.1 < q.1) (List.enumFrom n l)
  | [], _ => .nil
  | a :: as, n => by
    refine List.pairwise_cons.mpr ⟨?_, pairwise_enumFrom_fst_lt as (n + 1)⟩
    intro q hq
    obtain ⟨k, hk1, _⟩ := mem_enumFrom_ex as (n + 1) q hq
    show n < q.1
    omega

/-- Element lookup in an enum. -/
theorem getElem?_enum {α : Type} (l : List α) (i : Nat) :
    l.enum[i]? = l[i]?.map (fun a => (i, a)) := by
  have h1 : l.enum = List.enumFrom 0 l := rfl
  rw [h1, getElem?_enumFrom]
  have h2 : 0 + i = i := Nat.zero_add i
  rw [h2]

/-- The second pass of add_root_ids stamps the positions as global energy
numbers. -/
theorem map_energyNo_enumFrom :
    ∀ (l : List XRoot), (∀ x ∈ l, x.ids.isSome) → ∀ n,
      ((List.enumFrom n l).map
        (fun p => { p.2 with ids := p.2.ids.map (fun i : Ids => { i with energyNo := some p.1 }) })).map
          (fun r => r.ids.bind (fun i => i.energyNo)) =
      (List.range' n l.length).map some
  | [], _, n => rfl
  | x :: xs, hall, n => by
    obtain ⟨id0, hid⟩ := Option.isSome_iff_exists.mp
      (hall x (List.mem_cons_self x xs))
    show (({ x with ids := x.ids.map (fun i : Ids => { i with energyNo := some n }) } : XRoot).ids.bind
        (fun i => i.energyNo)) ::
      _ = (List.range' n (xs.length + 1)).map some
    rw [List.range'_succ, List.map_cons]
    have hhead : ({ x with ids := x.ids.map (fun i : Ids => { i with energyNo := some n }) } : XRoot).ids.bind
        (fun i => i.energyNo) = some n := by
      show (x.ids.map (fun i : Ids => { i with energyNo := some n })).bind (fun i => i.energyNo) = some n
      rw [hid]
      rfl
    rw [hhead]
    exact congrArg (some n :: ·)
      (map_energyNo_enumFrom xs (fun y hy => hall y (List.mem_cons_of_mem x hy)) (n + 1))

/-- Claim C7: after add_root_ids every record carries as insertion id its
position in the pre-sort list, the global energy numbers read in order are
exactly 0 to N - 1, and records of equal total energy keep ascending id
order, because the energy sort is stable. -/
theorem c7_root_ids (roots : List XRoot) :
    ((add_root_ids roots).map (fun r => r.ids.bind (fun i => i.energyNo)) =
      (List.range roots.length).map some) ∧
    (∀ (i : Nat) (r : XRoot), (add_root_ids roots)[i]? = some r →
      ∃ (j : Nat) (b : XRoot), roots[j]? = some b ∧
        r = { b with ids := some { no := j, energyNo := some i } }) ∧
    (∀ (i j : Nat) (a b : XRoot) (x y : Ids), i < j →
      (add_root_ids roots)[i]? = some a → (add_root_ids roots)[j]? = some b →
      a.energy.totalAu.eqv b.energy.totalAu →
      a.ids = some x → b.ids = some y → x.no < y.no) := by
  have hdef : add_root_ids roots =
      ((stableSort rootLe (roots.enum.map (fun p => { p.2 with ids := some { no := p.1 } }))).enum.map
        (fun p => { p.2 with ids := p.2.ids.map (fun i : Ids => { i with energyNo := some p.1 }) })) := rfl
  rw [hdef]
  have hsome : ∀ x ∈ stableSort rootLe
      (roots.enum.map (fun p => { p.2 with ids := some { no := p.1 } })), x.ids.isSome := by
    intro x hx
    have hx2 := (stableSort_perm rootLe _).mem_iff.mp hx
    simp only [List.mem_map] at hx2
    obtain ⟨q, hq, hqx⟩ := hx2
    rw [← hqx]
    rfl
  have hlenS : (stableSort rootLe
      (roots.enum.map (fun p => { p.2 with ids := some { no := p.1 } }))).length = roots.length := by
    rw [(stableSort_perm rootLe _).length_eq, List.length_map, List.enum_length]
  refine ⟨?_, ?_, ?_⟩
  · have h0 := map_energyNo_enumFrom _ hsome 0
    rw [show List.enumFrom 0 (stableSort rootLe
        (roots.enum.map (fun p => { p.2 with ids := some { no := p.1 } }))) =
      (stableSort rootLe (roots.enum.map (fun p => { p.2 with ids := some { no := p.1 } }))).enum
      from rfl] at h0
    rw [h0, hlenS, List.range_eq_range']
  · intro i r hri
    rw [List.getElem?_map, getElem?_enum] at hri
    rw [Option.map_map] at hri
    obtain ⟨xa, hxa, hfr⟩ := Option.map_eq_some'.mp hri
    have hmem : xa ∈ stableSort rootLe
        (roots.enum.map (fun p => { p.2 with ids := some { no := p.1 } })) :=
      (List.getElem?_eq_some.mp hxa).2 ▸
        List.getElem_mem (List.getElem?_eq_some.mp hxa).1
    have hmem2 := (stableSort_perm rootLe _).mem_iff.mp hmem
    simp only [List.mem_map] at hmem2
    obtain ⟨q, hq, hqx⟩ := hmem2
    obtain ⟨k, hk1, hk2⟩ := mem_enumFrom_ex roots 0 q hq
    refine ⟨q.1, q.2, by rw [hk1, Nat.zero_add]; exact hk2, ?_⟩
    rw [← hfr, ← hqx]
    rfl
  · intro i j a b x y hij ha hb heqv hxa hyb
    rw [List.getElem?_map, getElem?_enum, Option.map_map] at ha
    rw [List.getElem?_map, getElem?_enum, Option.map_map] at hb
    obtain ⟨va, hva, hfa⟩ := Option.map_eq_some'.mp ha
    obtain ⟨vb, hvb, hfb⟩ := Option.map_eq_some'.mp hb
    have hpw : List.Pairwise
        (fun u v : XRoot => rootLe u v = true → rootLe v u = true →
          ∀ xu yv : Ids, u.ids = some xu → v.ids = some yv → xu.no < yv.no)
        (stableSort rootLe
          (roots.enum.map (fun p => { p.2 with ids := some { no := p.1 } }))) := by
      apply pairwise_rel_stableSort
      · intro u v huv h1 h2
        exact absurd h2 (by rw [huv]; exact Bool.false_ne_true)
      · refine List.Pairwise.map _ ?_ (pairwise_enumFrom_fst_lt roots 0)
        intro p q hpq h1 h2 xu yv hxu hyv
        have hxu2 : xu = { no := p.1 } := by
          have : some ({ no := p.1 } : Ids) = some xu := hxu
          injection this with h3
          exact h3.symm
        have hyv2 : yv = { no := q.1 } := by
          have : some ({ no := q.1 } : Ids) = some yv := hyv
          injection this with h3
          exact h3.symm
        rw [hxu2, hyv2]
        exact hpq
    have hia := (List.getElem?_eq_some.mp hva).1
    have hib := (List.getElem?_eq_some.mp hvb).1
    have hrel := List.pairwise_iff_getElem.mp hpw i j hia hib hij
    rw [(List.getElem?_eq_some.mp hva).2, (List.getElem?_eq_some.mp hvb).2] at hrel
    have henA : a.energy = va.energy := by rw [← hfa]; rfl
    have henB : b.energy = vb.energy := by rw [← hfb]; rfl
    have heqv2 : va.energy.totalAu.eqv vb.energy.totalAu := by
      rw [← henA, ← henB]
      exact heqv
    obtain ⟨hle1, hle2⟩ := Dec.le_of_eqv heqv2
    have hle1b : rootLe va vb = true := by
      simp only [rootLe, decide_eq_true_eq]
      exact hle1
    have hle2b : rootLe vb va = true := by
      simp only [rootLe, decide_eq_true_eq]
      exact hle2
    have hidsA : a.ids = va.ids.map (fun id => { id with energyNo := some i }) := by
      rw [← hfa]; rfl
    have hidsB : b.ids = vb.ids.map (fun id => { id with energyNo := some j }) := by
      rw [← hfb]; rfl
    rw [hidsA] at hxa
    rw [hidsB] at hyb
    obtain ⟨xa0, hxa0, hxa1⟩ := Option.map_eq_some'.mp hxa
    obtain ⟨yb0, hyb0, hyb1⟩ := Option.map_eq_some'.mp hyb
    have hxno : x.no = xa0.no := by rw [← hxa1]
    have hyno : y.no = yb0.no := by rw [← hyb1]
    rw [hxno, hyno]
    exact hrel hle1b hle2b xa0 yb0 hxa0 hyb0

/-- Witness for claim C7 at the scenario roots: the two tied records at
sorted positions 1 and 2 keep ascending insertion ids 0 and 2. -/
theorem c7_witness :
    ({ no := 0, energyNo := some 1 } : Ids).no <
      ({ no := 2, energyNo := some 2 } : Ids).no :=
  (c7_root_ids c1roots).2.2 1 2
    { model := "EOMEE-CCSD", irrep := { no := 1 },
      energy := { totalAu := ⟨-75010, 3⟩ },
      ids := some { no := 0, energyNo := some 1 } }
    { model := "EOMEE-CCSD", irrep := { no := 1 },
      energy := { totalAu := ⟨-75010, 3⟩ },
      ids := some { no := 2, energyNo := some 2 } }
    { no := 0, energyNo := some 1 } { no := 2, energyNo := some 2 }
    (by decide) (by rfl) (by rfl) (by decide) rfl rfl

/-- Claim C6: the claim says an absent top level program, including on the
empty document, makes the lookups return an explicit absence value rather
than raise. The code disagrees: on the empty document get_basis uses the
unbound loop variable (NameError) and collect_normal_coordinates and
collect_gradient subscript None (TypeError). -/
theorem c6_absent_program_raises :
    get_basis ([] : Document) = .error .nameError ∧
    collect_normal_coordinates ([] : Document) = .error .typeError ∧
    collect_gradient ([] : Document) = .error .typeError :=
  ⟨rfl, rfl, rfl⟩

/-- Claim C2: the claim says an eom root section missing a child is skipped.
The code disagrees: with no earlier complete root the never assigned local
raises NameError, and after a complete root the stale locals leak, emitting
a record whose total energy is copied from the previous root even though the
second section has no EOM energy child. -/
theorem c2_partial_root_not_skipped :
    collect_eom_roots_xncc c2doc = .error .nameError ∧
    (collect_eom_roots_xncc c2doc2).map
        (fun rs => rs.map (fun r =>
          (r.energy.totalAu, r.converged.map (fun c => c.singles.length)))) =
      .ok [(⟨-748, 1⟩, some 1), (⟨-748, 1⟩, some 0)] := by
  exact ⟨by decide, by decide⟩

/-- Claim C1 as stated is false on the code: in the scenario with total
energies -75.010, -75.040, -75.010 and irrep numbers 1, 2, 1, the per-irrep
energy numbers of irrep 1 in sorted order are 1 and 2, not 0 and 1, because
the counter stores 1 on first sight and the stored value is assigned. -/
theorem c1_counterexample :
    (add_irrep_energy_no_and_name c1doc (add_root_ids c1roots)).map
        (fun p => (p.2.filter (fun r => r.irrep.no == 1)).map
          (fun r => r.irrep.energyNo)) =
      .ok [some 1, some 2] ∧
    ¬ (add_irrep_energy_no_and_name c1doc (add_root_ids c1roots)).map
        (fun p => (p.2.filter (fun r => r.irrep.no == 1)).map
          (fun r => r.irrep.energyNo)) =
      .ok [some 0, some 1] := by
  exact ⟨by decide, by decide⟩

/-- Claim C3 as stated is false on the code: the Extractor B pipeline writes
through the aliases its records hold into the document, so after the run the
eom solution section of c3doc carries an irrep name, a per-irrep energy
number and an excitation energy it did not carry before. -/
theorem c3_counterexample :
    (xveePipeline c3doc).map
        (fun p => (firstXveeSolutionIrrep p.1, firstXveeSolutionEnergy p.1)) =
      .ok (some { no := 1, name := some "A1", energyNo := some 1 },
           some { totalAu := ⟨-748, 1⟩,
                  excitation := some { au := ⟨2, 1⟩,
                                       eV := ⟨54422772491976, 13⟩ } }) ∧
    firstXveeSolutionIrrep c3doc = some { no := 1 } ∧
    firstXveeSolutionEnergy c3doc = some { totalAu := ⟨-748, 1⟩ } := by
  exact ⟨by decide, by decide, by decide⟩

/-- Claim C5 as stated is false on the code: on a document with two xvee
programs the output records cover only the ok solutions of the first program
(the loop breaks there), not every ok eom solution section of the
document. -/
theorem c5_counterexample :
    (collect_eom_roots_xvee c5doc).map
        (fun p => p.1.map (fun r => (r.model, r.energy, r.irrep))) =
      .ok (xveeOkSolutionsFirst c5doc) ∧
    ¬ (collect_eom_roots_xvee c5doc).map
        (fun p => p.1.map (fun r => (r.model, r.energy, r.irrep))) =
      .ok (xveeOkSolutionsDocWide c5doc) := by
  exact ⟨by decide, by decide⟩

/-- Claim C8: the threshold filter keeps exactly the entries whose absolute
amplitude is strictly greater than 0.1, preserving order (it yields a
sublist); an entry of absolute amplitude exactly 0.1 is dropped; and the
scenario list with amplitudes 0.35, 0.08, -0.12, 0.05 filters to the
entries of amplitudes 0.35 and -0.12. -/
theorem c8_threshold_filter :
    (∀ l : List Single, (filter_singles l).Sublist l) ∧
    (∀ (l : List Single) (s : Single),
      s ∈ filter_singles l ↔ s ∈ l ∧ SINGLE_THRESHOLD.lt s.amplitude.abs) ∧
    filter_singles c8amps = [⟨1, 2, ⟨35, 2⟩⟩, ⟨2, 2, ⟨-12, 2⟩⟩] ∧
    filter_singles [⟨1, 2, ⟨1, 1⟩⟩] = [] := by
  refine ⟨fun l => List.filter_sublist l, fun l s => ?_, by decide, by decide⟩
  simp [filter_singles, List.mem_filter]

/-- Claim C9: add_excitation_energy gives every root the excitation energy
equal to its total energy minus the reference, in au, and exactly that
difference times 27.211386245988 in eV; in the scenario the root at
-74.800 au against the reference -75.000 au gets 0.200 au, which is within
0.0001 of 5.4423 eV. -/
theorem c9_excitation_energy (doc : Document) (roots : List XRoot) (ref : Dec) :
    (add_excitation_energy doc roots ref).2 =
      roots.map (fun r =>
        { r with energy := { r.energy with excitation := some ⟨r.energy.totalAu.sub ref, (r.energy.totalAu.sub ref).mul au2eV⟩ } }) ∧
    (add_excitation_energy [] [c9root] ⟨-75, 0⟩).2.map (fun r => r.energy.excitation) =
      [some ⟨⟨2, 1⟩, ⟨54422772491976, 13⟩⟩] ∧
    ((⟨54422772491976, 13⟩ : Dec).sub ⟨54423, 4⟩).abs.lt ⟨1, 4⟩ := by
  refine ⟨?_, by decide, by decide⟩
  induction roots generalizing doc with
  | nil => rfl
  | cons r rs ih => simp [add_excitation_energy, ih]

/-- A sort whose comparison holds of every pair returns its input unchanged. -/
theorem stableSort_of_all_le {α : Type} (le : α → α → Bool)
    (hall : ∀ a b, le a b = true) : ∀ l : List α, stableSort le l = l
  | [] => rfl
  | x :: xs => by
    have ih := stableSort_of_all_le le hall xs
    unfold stableSort
    rw [ih]
    cases xs with
    | nil => rfl
    | cons y ys => simp [insertSorted, hall x y]

/-- Claim C10: outside the point group D2h the Mulliken sort key is the
constant 0, so the stable sort leaves the modes in their original order and
the Mulliken block only lowercases the symmetry labels. -/
theorem c10_mulliken_preserves_order (point_group : String) (modes : List Mode)
    (h : pyLower point_group ≠ "d2h") :
    stableSort (sort_Mulliken_le point_group) modes = modes ∧
    mulliken_reorder point_group modes =
      modes.map (fun m => { m with symmetry := pyLower m.symmetry }) := by
  have hb : (pyLower point_group == "d2h") = false := beq_eq_false_iff_ne.mpr h
  have hall : ∀ a b : Mode, sort_Mulliken_le point_group a b = true := by
    intro a b
    simp [sort_Mulliken_le, hb]
  have hsorted :
      List.Pairwise (fun a b => sort_Mulliken_le point_group a b = true) modes :=
    List.pairwise_iff_getElem.mpr (fun i j hi hj hij => hall _ _)
  have h1 : stableSort (sort_Mulliken_le point_group) modes = modes :=
    stableSort_of_all_le _ hall modes
  exact ⟨h1, by simp [mulliken_reorder, h1]⟩

/-- Witness for claim C10 at the point group C2v and two concrete modes. -/
theorem c10_witness :
    stableSort (sort_Mulliken_le "C2v") [mA, mB] = [mA, mB] ∧
    mulliken_reorder "C2v" [mA, mB] =
      [mA, mB].map (fun m => { m with symmetry := pyLower m.symmetry }) :=
  c10_mulliken_preserves_order "C2v" [mA, mB] (by decide)

end CfourProc
